import Mathlib

/-!
Verification development for the proxy-yoinker repository.

Rust strings are modelled as `List Char`; Rust `str::len` (a byte count)
is modelled by summing UTF-8 sizes of the characters.  A Rust function
that can panic is modelled with an `Option` result, `none` standing for
the panic.  External library behaviour (serde_yaml, serde_json, base64,
UTF-8 validation, the regex engine) is modelled by executable Lean
functions that reproduce the library semantics on the fragment this
program exercises; each such model carries a doc comment saying so.
-/

namespace ProxyYoinker

abbrev Str := List Char

/-- Byte length of a string, as Rust `str::len` counts it (UTF-8 bytes). -/
def byteLen (s : Str) : Nat := (s.map Char.utf8Size).sum

/-- ASCII whitespace set used to model Rust `char::is_whitespace` on the
inputs appearing here (all ASCII). -/
def isWs (c : Char) : Bool :=
  c = ' ' || c = '\t' || c = '\n' || c = '\r' || c = '\x0b' || c = '\x0c'

/-- Model of Rust `str::trim_start`. -/
def trimStart (s : Str) : Str := s.dropWhile isWs

/-- Model of Rust `str::trim`. -/
def trimStr (s : Str) : Str :=
  ((s.dropWhile isWs).reverse.dropWhile isWs).reverse

/-- Model of Rust `str::to_lowercase` (ASCII fragment: the keyword
sniffing in this program only involves ASCII letters). -/
def lowerStr (s : Str) : Str := s.map Char.toLower

/-- Model of Rust `str::contains` with a string pattern: substring test. -/
def containsSub : Str → Str → Bool
  | t, u =>
    if u.isPrefixOf t then true
    else
      match t with
      | [] => false
      | _ :: ts => containsSub ts u

/-- Split on a separator char, keeping every piece (k separators give
k+1 pieces), as Rust `str::split` does. -/
def splitOnChar (sep : Char) : Str → List Str
  | [] => [[]]
  | c :: cs =>
    if c = sep then [] :: splitOnChar sep cs
    else
      match splitOnChar sep cs with
      | [] => [[c]]
      | p :: ps => (c :: p) :: ps

def splitOnNl : Str → List Str := splitOnChar '\n'

/-- Strip one trailing `'\r'`, as Rust `str::lines` does per line. -/
def stripCr (s : Str) : Str :=
  match s.reverse with
  | '\r' :: rest => rest.reverse
  | _ => s

/-- Model of Rust `str::lines`: split on `'\n'`, drop the trailing empty
piece produced by a final newline (or by the empty string), and strip one
trailing `'\r'` from each line. -/
def rustLines (s : Str) : List Str :=
  let pieces := splitOnNl s
  let pieces := if pieces.getLast? = some [] then pieces.dropLast else pieces
  pieces.map stripCr

/-- Model of Rust `[&str]::join("\n")`. -/
def joinLines : List Str → Str
  | [] => []
  | [a] => a
  | a :: rest => a ++ '\n' :: joinLines rest

/-- Model of Rust byte slicing `&s[..n]`: the characters making up the
first `n` bytes; `none` when `n` is out of range or falls strictly inside
a multi-byte character (where Rust panics). -/
def bytePre (n : Nat) (s : Str) : Option Str :=
  if n = 0 then some []
  else
    match s with
    | [] => none
    | c :: cs =>
      if c.utf8Size ≤ n then
        (bytePre (n - c.utf8Size) cs).map (c :: ·)
      else
        none

-- Constants from src/config.rs
def MAX_TEXT_SIZE : Nat := 50 * 1024 * 1024
def MAX_LINES : Nat := 50000
def MAX_PROXIES_PER_CONFIG : Nat := 2000
def MAX_HOSTPORT_MATCHES : Nat := 5000
def MAX_JSON_MATCHES : Nat := 1000

/-- Embedding of `safe_limit_text` (src/utils.rs): cap to `MAX_TEXT_SIZE`
bytes by slicing, then cap to `MAX_LINES` lines by keeping the first
`MAX_LINES` lines rejoined with `'\n'`.  The byte slice panics (`none`)
when the 50 MB offset is not a character boundary. -/
def safe_limit_text (text : Str) : Option Str :=
  let step : Option Str :=
    if byteLen text > MAX_TEXT_SIZE then bytePre MAX_TEXT_SIZE text
    else some text
  match step with
  | none => none
  | some result =>
    let lines := rustLines result
    if lines.length > MAX_LINES then
      some (joinLines (lines.take MAX_LINES))
    else
      some result

/-- Model of Rust `str::parse::<u16>`: an optional leading `'+'`, then at
least one ASCII digit, and the value must fit in 16 bits. -/
def parseU16 (s : Str) : Option Nat :=
  let digits := match s with
    | '+' :: rest => rest
    | _ => s
  if digits ≠ [] ∧ digits.all Char.isDigit then
    let v := digits.foldl (fun a c => a * 10 + (c.toNat - '0'.toNat)) 0
    if v ≤ 65535 then some v else none
  else none

/-! ### Structured values (model of serde_json / serde_yaml `Value`) -/

inductive JValue where
  | null : JValue
  | bool : Bool → JValue
  | num : Int → JValue
  | str : Str → JValue
  | arr : List JValue → JValue
  | obj : List (Str × JValue) → JValue
deriving Repr

/-- Model of serde `Value::get` with a string key on a mapping. -/
def JValue.get (v : JValue) (k : Str) : Option JValue :=
  match v with
  | .obj kvs => (kvs.find? (fun kv => kv.1 == k)).map (·.2)
  | _ => none

/-- Model of serde `Value::as_str`. -/
def JValue.asStr : JValue → Option Str
  | .str s => some s
  | _ => none

/-- Model of serde `Value::as_u64`: integer numbers in `[0, 2^64)`. -/
def JValue.asU64 : JValue → Option Nat
  | .num n => if 0 ≤ n ∧ n < (2 : Int) ^ 64 then some n.toNat else none
  | _ => none

/-- Model of serde `Value::as_sequence` / `Value::as_array`. -/
def JValue.asSeq : JValue → Option (List JValue)
  | .arr xs => some xs
  | _ => none

/-- Skip JSON insignificant whitespace. -/
def skipWs (s : Str) : Str := s.dropWhile isWs

/-- Model of the serde_json string scanner (fragment: the simple escape
sequences; `\u` escapes are treated as parse errors). Returns the decoded
body and the input after the closing quote. -/
def jsonString : Nat → Str → Option (Str × Str)
  | 0, _ => none
  | _ + 1, [] => none
  | fuel + 1, c :: cs =>
    if c = '"' then some ([], cs)
    else if c = '\\' then
      match cs with
      | [] => none
      | e :: cs' =>
        let d? : Option Char :=
          if e = '"' then some '"'
          else if e = '\\' then some '\\'
          else if e = '/' then some '/'
          else if e = 'n' then some '\n'
          else if e = 't' then some '\t'
          else if e = 'r' then some '\r'
          else none
        match d? with
        | none => none
        | some d => (jsonString fuel cs').map (fun br => (d :: br.1, br.2))
    else (jsonString fuel cs).map (fun br => (c :: br.1, br.2))

/-- Model of serde_json number parsing (fragment: integer literals; a
fraction or exponent is treated as a parse error). -/
def jsonNumber (s : Str) : Option (Int × Str) :=
  let (neg, s') := match s with
    | '-' :: rest => (true, rest)
    | _ => (false, s)
  let ds := s'.takeWhile Char.isDigit
  if ds = [] then none
  else
    let rest := s'.drop ds.length
    match rest with
    | '.' :: _ => none
    | 'e' :: _ => none
    | 'E' :: _ => none
    | _ =>
      let v : Int := ds.foldl (fun a c => a * 10 + (c.toNat - '0'.toNat : Int)) 0
      some (if neg then -v else v, rest)

mutual

/-- Model of the serde_json parser (fragment: objects, arrays, strings
with simple escapes, integer numbers, `true`/`false`/`null`). Fuel-based;
the caller supplies fuel exceeding the input length, which suffices since
every recursive call consumes at least one character. -/
def jsonVal : Nat → Str → Option (JValue × Str)
  | 0, _ => none
  | fuel + 1, s =>
    match skipWs s with
    | [] => none
    | c :: cs =>
      if c = '{' then
        match skipWs cs with
        | '}' :: rest => some (.obj [], rest)
        | cs' => (jsonMembers fuel cs').map (fun p => (.obj p.1, p.2))
      else if c = '[' then
        match skipWs cs with
        | ']' :: rest => some (.arr [], rest)
        | cs' => (jsonElems fuel cs').map (fun p => (.arr p.1, p.2))
      else if c = '"' then
        (jsonString fuel cs).map (fun p => (.str p.1, p.2))
      else if "true".data.isPrefixOf (c :: cs) then
        some (.bool true, (c :: cs).drop 4)
      else if "false".data.isPrefixOf (c :: cs) then
        some (.bool false, (c :: cs).drop 5)
      else if "null".data.isPrefixOf (c :: cs) then
        some (.null, (c :: cs).drop 4)
      else
        (jsonNumber (c :: cs)).map (fun p => (.num p.1, p.2))

/-- Members of a JSON object, positioned at the first key. -/
def jsonMembers : Nat → Str → Option (List (Str × JValue) × Str)
  | 0, _ => none
  | fuel + 1, s =>
    match skipWs s with
    | '"' :: cs =>
      match jsonString fuel cs with
      | none => none
      | some (key, rest) =>
        match skipWs rest with
        | ':' :: rest2 =>
          match jsonVal fuel rest2 with
          | none => none
          | some (v, rest3) =>
            match skipWs rest3 with
            | ',' :: rest4 =>
              (jsonMembers fuel rest4).map (fun p => ((key, v) :: p.1, p.2))
            | '}' :: rest4 => some ([(key, v)], rest4)
            | _ => none
        | _ => none
    | _ => none

/-- Elements of a JSON array, positioned at the first element. -/
def jsonElems : Nat → Str → Option (List JValue × Str)
  | 0, _ => none
  | fuel + 1, s =>
    match jsonVal fuel s with
    | none => none
    | some (v, rest) =>
      match skipWs rest with
      | ',' :: rest2 => (jsonElems fuel rest2).map (fun p => (v :: p.1, p.2))
      | ']' :: rest2 => some ([v], rest2)
      | _ => none

end

/-- Model of `serde_json::from_str::<Value>`: parse one value and require
only whitespace after it. -/
def jsonParse (s : Str) : Option JValue :=
  match jsonVal (s.length + 1) s with
  | some (v, rest) => if skipWs rest = [] then some v else none
  | none => none

/-! ### YAML model (fragment of serde_yaml) -/

/-- Cut a YAML line at the first `" #"` comment start. -/
def cutComment : Str → Str
  | [] => []
  | ' ' :: '#' :: _ => []
  | c :: cs => c :: cutComment cs

/-- Skip spaces and tabs (YAML flow separation). -/
def skipSp (s : Str) : Str := s.dropWhile (fun c => c = ' ' || c = '\t')

/-- Type a YAML plain scalar: all-digit scalars become integers, the rest
stay strings, as serde_yaml does for the scalars appearing here. -/
def yamlScalar (s : Str) : JValue :=
  let t := trimStr s
  if t ≠ [] ∧ t.all Char.isDigit then
    .num (t.foldl (fun a c => a * 10 + (c.toNat - '0'.toNat : Int)) 0)
  else .str t

/-- A YAML flow plain scalar runs until a flow indicator. -/
def yamlPlainEnd (c : Char) : Bool := c = ',' || c = ']' || c = '}'

mutual

/-- Model of the serde_yaml value parser, restricted to flow style:
flow sequences, flow mappings, and plain scalars.  Fuel-based; callers
supply fuel exceeding the input length. -/
def yVal : Nat → Str → Option (JValue × Str)
  | 0, _ => none
  | fuel + 1, s =>
    match skipSp s with
    | '[' :: cs =>
      match skipSp cs with
      | ']' :: rest => some (.arr [], rest)
      | cs' => (yElems fuel cs').map (fun p => (.arr p.1, p.2))
    | '{' :: cs =>
      match skipSp cs with
      | '}' :: rest => some (.obj [], rest)
      | cs' => (yPairs fuel cs').map (fun p => (.obj p.1, p.2))
    | s' =>
      let run := s'.takeWhile (fun c => ¬ yamlPlainEnd c)
      if run = [] then none
      else some (yamlScalar run, s'.drop run.length)

/-- Elements of a YAML flow sequence. -/
def yElems : Nat → Str → Option (List JValue × Str)
  | 0, _ => none
  | fuel + 1, s =>
    match yVal fuel s with
    | none => none
    | some (v, rest) =>
      match skipSp rest with
      | ',' :: rest2 => (yElems fuel rest2).map (fun p => (v :: p.1, p.2))
      | ']' :: rest2 => some ([v], rest2)
      | _ => none

/-- Entries of a YAML flow mapping: plain-scalar key, `':'`, value. -/
def yPairs : Nat → Str → Option (List (Str × JValue) × Str)
  | 0, _ => none
  | fuel + 1, s =>
    let s' := skipSp s
    let key := s'.takeWhile (fun c => c ≠ ':' ∧ c ≠ ',' ∧ c ≠ '}' ∧ c ≠ ']')
    if key = [] then none
    else
      match s'.drop key.length with
      | ':' :: rest =>
        match yVal fuel rest with
        | none => none
        | some (v, rest2) =>
          match skipSp rest2 with
          | ',' :: rest3 =>
            (yPairs fuel rest3).map (fun p => ((trimStr key, v) :: p.1, p.2))
          | '}' :: rest3 => some ([(trimStr key, v)], rest3)
          | _ => none
      | _ => none

end

/-- Model of `serde_yaml::from_str::<Value>`, covering the fragment this
program's structured bodies exercise: a single-line top-level mapping
entry `key: <flow value>`, with an optional trailing `" #"` comment.
Documents outside this fragment are treated as parse errors, which the
calling parser turns into an empty node list either way. -/
def yamlParse (text : Str) : Option JValue :=
  let t := cutComment (trimStr text)
  if t.contains '\n' then none
  else
    let key := t.takeWhile (fun c => c ≠ ':')
    if key = [] then none
    else
      match t.drop key.length with
      | ':' :: rest =>
        if trimStr rest = [] then some (.obj [(trimStr key, .null)])
        else
          match yVal (rest.length + 1) rest with
          | some (v, rest2) =>
            if skipSp rest2 = [] then some (.obj [(trimStr key, v)]) else none
          | none => none
      | _ => none

/-! ### base64 (model of the base64 crate's STANDARD engine) -/

/-- Value of one base64 alphabet character. -/
def b64val (c : Char) : Option Nat :=
  if 'A' ≤ c ∧ c ≤ 'Z' then some (c.toNat - 65)
  else if 'a' ≤ c ∧ c ≤ 'z' then some (c.toNat - 97 + 26)
  else if '0' ≤ c ∧ c ≤ '9' then some (c.toNat - 48 + 52)
  else if c = '+' then some 62
  else if c = '/' then some 63
  else none

/-- Model of `base64::engine::general_purpose::STANDARD.decode`: requires
canonical padding (length a multiple of four, `'='` only at the end) and
zero trailing bits. -/
def b64decode : Str → Option (List Nat)
  | [] => some []
  | a :: b :: c :: d :: rest =>
    match b64val a, b64val b with
    | some va, some vb =>
      if c = '=' then
        if d = '=' ∧ rest = [] ∧ vb % 16 = 0 then
          some [va * 4 + vb / 16]
        else none
      else
        match b64val c with
        | some vc =>
          if d = '=' then
            if rest = [] ∧ vc % 4 = 0 then
              some [va * 4 + vb / 16, (vb % 16) * 16 + vc / 4]
            else none
          else
            match b64val d with
            | some vd =>
              (b64decode rest).map (fun tl =>
                (va * 4 + vb / 16) ::
                ((vb % 16) * 16 + vc / 4) ::
                ((vc % 4) * 64 + vd) :: tl)
            | none => none
        | none => none
    | _, _ => none
  | _ => none

/-- Model of `String::from_utf8`: strict UTF-8 decoding with the standard
continuation, overlong, surrogate, and range checks. -/
def utf8Decode : List Nat → Option Str
  | [] => some []
  | b :: bs =>
    if b < 0x80 then
      (utf8Decode bs).map (Char.ofNat b :: ·)
    else if b < 0xC0 then none
    else if b < 0xE0 then
      match bs with
      | b1 :: bs' =>
        if 0x80 ≤ b1 ∧ b1 < 0xC0 then
          let cp := (b - 0xC0) * 64 + (b1 - 0x80)
          if 0x80 ≤ cp then (utf8Decode bs').map (Char.ofNat cp :: ·) else none
        else none
      | _ => none
    else if b < 0xF0 then
      match bs with
      | b1 :: b2 :: bs' =>
        if (0x80 ≤ b1 ∧ b1 < 0xC0) ∧ (0x80 ≤ b2 ∧ b2 < 0xC0) then
          let cp := (b - 0xE0) * 4096 + (b1 - 0x80) * 64 + (b2 - 0x80)
          if 0x800 ≤ cp ∧ ¬ (0xD800 ≤ cp ∧ cp ≤ 0xDFFF) then
            (utf8Decode bs').map (Char.ofNat cp :: ·)
          else none
        else none
      | _ => none
    else if b < 0xF8 then
      match bs with
      | b1 :: b2 :: b3 :: bs' =>
        if (0x80 ≤ b1 ∧ b1 < 0xC0) ∧ (0x80 ≤ b2 ∧ b2 < 0xC0) ∧
            (0x80 ≤ b3 ∧ b3 < 0xC0) then
          let cp := (b - 0xF0) * 262144 + (b1 - 0x80) * 4096 +
            (b2 - 0x80) * 64 + (b3 - 0x80)
          if 0x10000 ≤ cp ∧ cp ≤ 0x10FFFF then
            (utf8Decode bs').map (Char.ofNat cp :: ·)
          else none
        else none
      | _ => none
    else none

/-! ### Regex engine model

Each compiled pattern of `RegexPatterns::new` (src/models.rs) is modelled
by a matcher that attempts a match at the current position, returning the
capture and the input after the match end.  `scanMatches` reproduces
`Regex::captures_iter`: leftmost search (advance one character on
failure) and non-overlapping continuation after each match. -/

/-- Drop an exact literal from the front, or fail. -/
def dropLit : Str → Str → Option Str
  | [], s => some s
  | _, [] => none
  | p :: ps, c :: cs => if p = c then dropLit ps cs else none

/-- A maximal nonempty run of characters satisfying `p` (a greedy `+`
over a character class). -/
def run1 (p : Char → Bool) (s : Str) : Option (Str × Str) :=
  let r := s.takeWhile p
  if r = [] then none else some (r, s.drop r.length)

/-- Iterate a matcher over the input: on a match, continue after its end;
on failure, advance one character.  Fuel-based (any fuel beyond the input
length is enough, every step consuming at least one character). -/
def scanA {α : Type} (m : Str → Option (α × Str)) : Nat → Str → List α
  | 0, _ => []
  | fuel + 1, s =>
    match m s with
    | some (a, rest) => a :: scanA m fuel rest
    | none =>
      match s with
      | [] => []
      | _ :: cs => scanA m fuel cs

def scanMatches {α : Type} (m : Str → Option (α × Str)) (s : Str) : List α :=
  scanA m (s.length + 1) s

/-- Matcher for `P://[^@]+@([^/?#]+)` at the current position (the
vless/trojan/ss patterns), returning the capture group. -/
def schemeUserHostAt (scheme : Str) (s : Str) : Option (Str × Str) :=
  match dropLit (scheme ++ "://".data) s with
  | none => none
  | some r1 =>
    match run1 (fun c => c ≠ '@') r1 with
    | none => none
    | some (_, r2) =>
      match r2 with
      | '@' :: r3 => run1 (fun c => c ≠ '/' ∧ c ≠ '?' ∧ c ≠ '#') r3
      | _ => none

/-- The base64 alphabet class `[A-Za-z0-9+/=]`. -/
def isB64Char (c : Char) : Bool :=
  c.isAlpha || c.isDigit || c = '+' || c = '/' || c = '='

/-- Matcher for `P://([A-Za-z0-9+/=]+)` (the vmess/ssr patterns). -/
def b64At (scheme : Str) (s : Str) : Option (Str × Str) :=
  match dropLit (scheme ++ "://".data) s with
  | none => none
  | some r1 => run1 isB64Char r1

/-- The host class `[0-9a-zA-Z.\-]`. -/
def isHostChar (c : Char) : Bool :=
  c.isAlpha || c.isDigit || c = '.' || c = '-'

/-- Matcher for `([0-9a-zA-Z.\-]+):(\d{2,5})` (the generic host:port
pattern), returning both capture groups. -/
def hostportAt (s : Str) : Option ((Str × Str) × Str) :=
  match run1 isHostChar s with
  | none => none
  | some (h, r1) =>
    match r1 with
    | ':' :: r2 =>
      let ds := r2.takeWhile Char.isDigit
      if 2 ≤ ds.length then
        let port := ds.take 5
        some ((h, port), r2.drop port.length)
      else none
    | _ => none

/-- Matcher for `-\s*(\{[^}]*\})` (the inline-JSON pattern). -/
def inlineJsonAt (s : Str) : Option (Str × Str) :=
  match s with
  | '-' :: r1 =>
    match r1.dropWhile isWs with
    | '{' :: r3 =>
      let inner := r3.takeWhile (fun c => c ≠ '}')
      match r3.drop inner.length with
      | '}' :: r4 => some ('{' :: inner ++ ['}'], r4)
      | _ => none
    | _ => none
  | _ => none

/-- Matcher for `https?://[^\s)]+` (the URL pattern); the whole match is
the result. -/
def urlAt (s : Str) : Option (Str × Str) :=
  match dropLit "http".data s with
  | none => none
  | some r1 =>
    let (sPart, r2) := match r1 with
      | 's' :: rest => (['s'], rest)
      | _ => (([] : Str), r1)
    match dropLit "://".data r2 with
    | none => none
    | some r3 =>
      match run1 (fun c => ¬ isWs c ∧ c ≠ ')') r3 with
      | none => none
      | some (body, r4) =>
        some ("http".data ++ sPart ++ "://".data ++ body, r4)

/-! ### Data model (src/models.rs) -/

structure Node where
  host : Str
  port : Nat
deriving DecidableEq, Repr

def Node.new (host : Str) (port : Nat) : Node := ⟨host, port⟩

/-- `Node::url`: the synthesized `http://host:port` address. -/
def Node.url (n : Node) : Str :=
  "http://".data ++ n.host ++ ':' :: (Nat.repr n.port).data

structure UrlResult where
  url : Str
  status : Option Nat
  latency : Option Nat
deriving DecidableEq, Repr

structure NodeResult where
  node : Node
  status : Option Nat
  latency : Option Nat
deriving DecidableEq, Repr

/-- Embedding of `RegexPatterns` (src/models.rs): each field is the
capture iterator of the corresponding compiled pattern. -/
structure RegexPatterns where
  url_regex : Str → List Str
  hostport_regex : Str → List (Str × Str)
  vmess_regex : Str → List Str
  vless_regex : Str → List Str
  trojan_regex : Str → List Str
  ss_regex : Str → List Str
  ssr_regex : Str → List Str
  json_inline_regex : Str → List Str

/-- `RegexPatterns::new`: the fixed pattern table of src/models.rs. -/
def RegexPatterns.new : RegexPatterns where
  url_regex := scanMatches urlAt
  hostport_regex := scanMatches hostportAt
  vmess_regex := scanMatches (b64At "vmess".data)
  vless_regex := scanMatches (schemeUserHostAt "vless".data)
  trojan_regex := scanMatches (schemeUserHostAt "trojan".data)
  ss_regex := scanMatches (schemeUserHostAt "ss".data)
  ssr_regex := scanMatches (b64At "ssr".data)
  json_inline_regex := scanMatches inlineJsonAt

/-! ### Parsers (src/parsers/proxy_urls.rs, config_files.rs, generic.rs) -/

/-- Embedding of `parse_vmess`: for each base64 capture, decode, read the
bytes as UTF-8, parse as JSON, and take `add`/`port` with `port ≤ 65535`. -/
def parse_vmess (text : Str) (patterns : RegexPatterns) : List Node :=
  (patterns.vmess_regex text).filterMap (fun b64 =>
    match b64decode b64 with
    | none => none
    | some decoded =>
      match utf8Decode decoded with
      | none => none
      | some json_str =>
        match jsonParse json_str with
        | none => none
        | some config =>
          match (config.get "add".data).bind JValue.asStr,
              (config.get "port".data).bind JValue.asU64 with
          | some host, some port =>
            if port ≤ 65535 then some (Node.new host port) else none
          | _, _ => none)

/-- Split a `user-info`-free host-port segment at its last colon, as
`hostport.rfind(':')` does in `parse_protocol_url`. -/
def splitAtLastColon (hp : Str) : Option (Str × Str) :=
  match hp.reverse.dropWhile (fun c => c ≠ ':') with
  | ':' :: revHost =>
    some (revHost.reverse, (hp.reverse.takeWhile (fun c => c ≠ ':')).reverse)
  | _ => none

/-- The pattern selection at the head of `parse_protocol_url` (the
`match protocol` returning early with no nodes on an unknown name). -/
def protocolRegex (patterns : RegexPatterns) : String → Option (Str → List Str)
  | "vless" => some patterns.vless_regex
  | "trojan" => some patterns.trojan_regex
  | "ss" => some patterns.ss_regex
  | _ => none

/-- Embedding of `parse_protocol_url`: select the pattern by protocol
name, split each capture at the last colon, and keep captures whose port
substring parses as a `u16`. -/
def parse_protocol_url (text : Str) (patterns : RegexPatterns)
    (protocol : String) : List Node :=
  match protocolRegex patterns protocol with
  | none => []
  | some regex =>
    (regex text).filterMap (fun hostport =>
      match splitAtLastColon hostport with
      | none => none
      | some (host, port_str) =>
        (parseU16 port_str).map (fun p => Node.new host p))

/-- Embedding of `parse_ssr`: decode each base64 capture, split on `':'`,
require at least six fields, host = field 0, port = field 1 as `u16`. -/
def parse_ssr (text : Str) (patterns : RegexPatterns) : List Node :=
  (patterns.ssr_regex text).filterMap (fun b64 =>
    match b64decode b64 with
    | none => none
    | some decoded =>
      match utf8Decode decoded with
      | none => none
      | some decoded_str =>
        match splitOnChar ':' decoded_str with
        | p0 :: p1 :: _ :: _ :: _ :: _ :: _ =>
          (parseU16 p1).map (fun p => Node.new p0 p)
        | _ => none)

/-- Embedding of `parse_clash_yaml`: parse the document, read the
`proxies` sequence, and for up to `MAX_PROXIES_PER_CONFIG` entries take
`server`/`port` pairs with `port ≤ 65535`. -/
def parse_clash_yaml (text : Str) : List Node :=
  match yamlParse text with
  | none => []
  | some yaml_value =>
    match (yaml_value.get "proxies".data).bind JValue.asSeq with
    | none => []
    | some proxies =>
      (proxies.take MAX_PROXIES_PER_CONFIG).filterMap (fun proxy =>
        match (proxy.get "server".data).bind JValue.asStr,
            (proxy.get "port".data).bind JValue.asU64 with
        | some server, some port =>
          if port ≤ 65535 then some (Node.new server port) else none
        | _, _ => none)

/-- Embedding of `parse_v2ray_json`: walk `outbounds[].settings.vnext[]`
and take `address`/`port` pairs with `port ≤ 65535`. -/
def parse_v2ray_json (text : Str) : List Node :=
  match jsonParse text with
  | none => []
  | some config =>
    match (config.get "outbounds".data).bind JValue.asSeq with
    | none => []
    | some outbounds =>
      outbounds.flatMap (fun outbound =>
        match ((outbound.get "settings".data).bind
            (fun s => s.get "vnext".data)).bind JValue.asSeq with
        | none => []
        | some vnexts =>
          vnexts.filterMap (fun vnext =>
            match (vnext.get "address".data).bind JValue.asStr,
                (vnext.get "port".data).bind JValue.asU64 with
            | some address, some port =>
              if port ≤ 65535 then some (Node.new address port) else none
            | _, _ => none))

/-- Embedding of `parse_inline_json`: for up to `MAX_JSON_MATCHES` inline
object captures, parse as JSON and take `server` (falling back to the
`address` key only when `server` is absent) and `port ≤ 65535`. -/
def parse_inline_json (text : Str) (patterns : RegexPatterns) : List Node :=
  ((patterns.json_inline_regex text).take MAX_JSON_MATCHES).filterMap
    (fun json_str =>
      match jsonParse json_str with
      | none => none
      | some obj =>
        let server? :=
          match obj.get "server".data with
          | some v => some v
          | none => obj.get "address".data
        match server?.bind JValue.asStr,
            (obj.get "port".data).bind JValue.asU64 with
        | some host, some port =>
          if port ≤ 65535 then some (Node.new host port) else none
        | _, _ => none)

/-- Embedding of `parse_generic`: up to `MAX_HOSTPORT_MATCHES` bare
`host:port` captures whose port parses as a `u16`. -/
def parse_generic (text : Str) (patterns : RegexPatterns) : List Node :=
  ((patterns.hostport_regex text).take MAX_HOSTPORT_MATCHES).filterMap
    (fun cap => (parseU16 cap.2).map (fun p => Node.new cap.1 p))

/-! ### The format dispatcher (src/parsers/mod.rs) -/

/-- The `for protocol in &["vless", "trojan", "ss"]` loop of
`detect_format_and_parse`: first protocol whose trigger fires and whose
parser yields a nonempty result. -/
def protoLoop (text : Str) (patterns : RegexPatterns) :
    List String → Option (List Node)
  | [] => none
  | p :: ps =>
    if containsSub text (p.data ++ "://".data) then
      let nodes := parse_protocol_url text patterns p
      if nodes ≠ [] then some nodes else protoLoop text patterns ps
    else protoLoop text patterns ps

/-- Embedding of `detect_format_and_parse`: guard on a blank body, cap
the text (a panic of the cap propagates as `none`), then try the parsers
in the fixed priority order, returning at the first nonempty result.
The `verbose` flag only drives logging in the source and does not affect
the result. -/
def detect_format_and_parse (text : Str) (patterns : RegexPatterns)
    (verbose : Bool) : Option (List Node) :=
  if trimStr text = [] then some [] else
  match safe_limit_text text with
  | none => none
  | some text =>
    let text_lower := lowerStr text
    let _ := verbose
    let clash :=
      if containsSub text_lower "proxies:".data ||
          containsSub text_lower "proxy-groups:".data then
        parse_clash_yaml text
      else []
    if clash ≠ [] then some clash else
    let v2ray :=
      if (trimStart text).head? = some '{' ∧
          (containsSub text_lower "outbounds".data ||
            containsSub text_lower "inbounds".data) then
        parse_v2ray_json text
      else []
    if v2ray ≠ [] then some v2ray else
    let vmess :=
      if containsSub text "vmess://".data then parse_vmess text patterns
      else []
    if vmess ≠ [] then some vmess else
    match protoLoop text patterns ["vless", "trojan", "ss"] with
    | some nodes => some nodes
    | none =>
      let ssr :=
        if containsSub text "ssr://".data then parse_ssr text patterns
        else []
      if ssr ≠ [] then some ssr else
      let inline :=
        if text.contains '{' ∧
            (containsSub text_lower "server".data ||
              containsSub text_lower "address".data) then
          parse_inline_json text patterns
        else []
      if inline ≠ [] then some inline else
      some (parse_generic text patterns)

/-! ### Reachability probe (src/network/checker.rs)

The HTTP environment is shallowly embedded: `headResp` and `getResp` are
the statuses the two requests would observe (`none` for a transport
error), `timedOut` says whether the whole attempt exceeded the timeout,
and `elapsedMs` is the wall-clock time measured by `start.elapsed()`. -/

/-- Embedding of `http_check`: inside the timeout, issue HEAD; an `Ok`
response with status < 400 is used directly, anything else falls back to
one GET.  On a definitive response, record its status and the elapsed
time; on timeout or transport failure of the chosen request, record
neither. -/
def http_check (url : Str) (headResp getResp : Option Nat)
    (timedOut : Bool) (elapsedMs : Nat) : UrlResult :=
  if timedOut then { url := url, status := none, latency := none }
  else
    let inner : Option Nat :=
      match headResp with
      | some s => if s < 400 then some s else getResp
      | none => getResp
    match inner with
    | some s => { url := url, status := some s, latency := some elapsedMs }
    | none => { url := url, status := none, latency := none }

/-- Embedding of `node_http_check`: probe the node's synthesized address
and copy status and latency into a `NodeResult`. -/
def node_http_check (node : Node) (headResp getResp : Option Nat)
    (timedOut : Bool) (elapsedMs : Nat) : NodeResult :=
  let result := http_check node.url headResp getResp timedOut elapsedMs
  { node := node, status := result.status, latency := result.latency }

/-! ### The working-URL gate (src/main.rs, phase 1 → phase 2) -/

/-- Embedding of the `working_urls` filter in `main`: keep exactly the
probe results whose status is `Some(200)`, pairing each URL with its
latency (`unwrap_or(0.0)`). -/
def working_urls (url_results : List UrlResult) : List (Str × Nat) :=
  url_results.filterMap (fun r =>
    if r.status = some 200 then some (r.url, r.latency.getD 0) else none)

/-! ### Concrete inputs used by the theorems below -/

/-- A body containing both a structured-config `proxies:` block and a
`vmess://` URI (inside a YAML comment, so the document stays valid). -/
def c1Body : Str :=
  "proxies: [{server: h.com, port: 443}] # vmess://abcd".data

/-- A body containing a `vmess://` URI whose base64 payload (`x`) fails
to decode, and no standalone `ss://` URI. -/
def c9Body : Str := "vmess://x@host:1234".data

/-- A 60,000-line body (each line is `a`). -/
def c7Text : Str := joinLines (List.replicate 60000 ['a'])

/-- The first 50,000 lines of `c7Text`, rejoined. -/
def c7Capped : Str := joinLines (List.replicate MAX_LINES ['a'])

/-- A body of 52,428,801 bytes whose 50 MB byte offset falls inside the
two-byte character `é`. -/
def c8Text : Str := 'a' :: List.replicate 26214400 'é'

/-! ## Theorems -/

/-! ### Helper lemmas -/

theorem parseU16_le (s : Str) (p : Nat) (h : parseU16 s = some p) :
    p ≤ 65535 := by
  simp only [parseU16] at h
  split at h
  · split at h
    · next hv => exact Option.some.inj h ▸ hv
    · exact absurd h (by simp)
  · exact absurd h (by simp)

/-- `splitAtLastColon` really splits at the rightmost colon: the input is
host ++ ':' ++ port and the port part is colon-free. -/
theorem splitAtLastColon_spec (hp h p : Str)
    (he : splitAtLastColon hp = some (h, p)) :
    hp = h ++ ':' :: p ∧ ':' ∉ p := by
  simp only [splitAtLastColon] at he
  split at he
  · next revHost hdrop =>
    rw [Option.some.injEq, Prod.mk.injEq] at he
    obtain ⟨hh, hpp⟩ := he
    constructor
    · have hsplit :
          hp.reverse.takeWhile (fun c => decide (c ≠ ':')) ++
            hp.reverse.dropWhile (fun c => decide (c ≠ ':')) = hp.reverse :=
        List.takeWhile_append_dropWhile _ _
      rw [hdrop] at hsplit
      have : hp = (hp.reverse.takeWhile (fun c => decide (c ≠ ':')) ++
          ':' :: revHost).reverse := by
        rw [hsplit, List.reverse_reverse]
      rw [this, List.reverse_append, List.reverse_cons, ← hh, ← hpp]
      simp
    · rw [← hpp]
      intro hmem
      have := List.mem_takeWhile_imp (List.mem_reverse.mp hmem)
      simp at this
  · exact absurd he (by simp)

/-- C10: `detect_format_and_parse` is deterministic — two invocations
with the same text, pattern table, and verbose flag return identical node
lists; the embedding is a pure function of its arguments, with no hidden
state. -/
theorem detect_format_and_parse_deterministic (t₁ t₂ : Str)
    (p₁ p₂ : RegexPatterns) (v₁ v₂ : Bool)
    (ht : t₁ = t₂) (hp : p₁ = p₂) (hv : v₁ = v₂) :
    detect_format_and_parse t₁ p₁ v₁ = detect_format_and_parse t₂ p₂ v₂ := by
  rw [ht, hp, hv]

theorem detect_format_and_parse_deterministic_witness :
    detect_format_and_parse "host:1234".data RegexPatterns.new false =
      detect_format_and_parse "host:1234".data RegexPatterns.new false :=
  detect_format_and_parse_deterministic _ _ _ _ _ _ rfl rfl rfl

/-- C6: in a URL probe result and a node probe result, status and latency
are both present or both absent; on timeout or on transport failure of
both requests they are absent, and on a definitive response the latency
is the measured elapsed time. -/
theorem probe_status_latency_contract (url : Str) (node : Node)
    (headResp getResp : Option Nat) (timedOut : Bool) (elapsedMs : Nat) :
    ((http_check url headResp getResp timedOut elapsedMs).status = none ↔
      (http_check url headResp getResp timedOut elapsedMs).latency = none) ∧
    (timedOut = true →
      (http_check url headResp getResp timedOut elapsedMs).status = none ∧
      (http_check url headResp getResp timedOut elapsedMs).latency = none) ∧
    (headResp = none → getResp = none →
      (http_check url headResp getResp timedOut elapsedMs).status = none ∧
      (http_check url headResp getResp timedOut elapsedMs).latency = none) ∧
    (∀ s, (http_check url headResp getResp timedOut elapsedMs).status = some s →
      (http_check url headResp getResp timedOut elapsedMs).latency = some elapsedMs) ∧
    ((node_http_check node headResp getResp timedOut elapsedMs).status = none ↔
      (node_http_check node headResp getResp timedOut elapsedMs).latency = none) ∧
    (timedOut = true →
      (node_http_check node headResp getResp timedOut elapsedMs).status = none ∧
      (node_http_check node headResp getResp timedOut elapsedMs).latency = none) ∧
    (∀ s, (node_http_check node headResp getResp timedOut elapsedMs).status = some s →
      (node_http_check node headResp getResp timedOut elapsedMs).latency = some elapsedMs) := by
  cases timedOut <;> cases headResp <;> cases getResp <;>
    simp [http_check, node_http_check] <;> split_ifs <;> simp_all

theorem probe_status_latency_contract_witness :
    (http_check "http://e.test".data none none true 9).status = none ∧
    (http_check "http://e.test".data none none true 9).latency = none :=
  (probe_status_latency_contract "http://e.test".data (Node.new "h".data 80)
    none none true 9).2.1 rfl

/-- C3 counterexample: a HEAD response with status 301 and a GET that
would return 404 — the recorded status is 301 (the HEAD status), not the
GET status, so the GET result is not what gets recorded. -/
theorem http_check_head301_uses_head :
    (http_check "http://e.test".data (some 301) (some 404) false 5).status
        = some 301 ∧
    (http_check "http://e.test".data (some 301) (some 404) false 5).status
        ≠ some 404 := by
  decide

/-- C3 (amended): a HEAD response with an accepted status (< 400, which
includes 301) is recorded directly and GET is not consulted; the request
is reissued as GET exactly when HEAD errs or returns ≥ 400, and then the
GET outcome is what gets recorded. -/
theorem http_check_head_fallback (url : Str) (getResp : Option Nat)
    (elapsedMs : Nat) :
    (∀ s, s < 400 →
      (http_check url (some s) getResp false elapsedMs).status = some s) ∧
    (∀ s, 400 ≤ s →
      (http_check url (some s) getResp false elapsedMs).status = getResp) ∧
    (http_check url none getResp false elapsedMs).status = getResp := by
  refine ⟨fun s h => ?_, fun s h => ?_, ?_⟩
  · simp [http_check, if_pos h]
  · cases getResp <;> simp [http_check, Nat.not_lt.mpr h]
  · cases getResp <;> simp [http_check]

theorem http_check_head_fallback_witness :
    400 ≤ 404 ∧
    (http_check "http://e.test".data (some 404) (some 200) false 3).status
        = some 200 :=
  ⟨by decide,
    (http_check_head_fallback "http://e.test".data (some 200) 3).2.1 404 (by decide)⟩

/-- C5: a URL continues to the fetch stage iff its probe status is
exactly `Some(200)`: an entry of the working-URL list comes from a result
with status 200 (carrying its latency), and results with any other or
absent status contribute no entry. -/
theorem working_urls_gate (url_results : List UrlResult) (u : Str) :
    ((∃ l, (u, l) ∈ working_urls url_results) ↔
      (∃ r ∈ url_results, r.url = u ∧ r.status = some 200)) ∧
    (∀ l, (u, l) ∈ working_urls url_results →
      ∃ r ∈ url_results, r.url = u ∧ r.status = some 200 ∧
        l = r.latency.getD 0) := by
  constructor
  · constructor
    · rintro ⟨l, hl⟩
      simp only [working_urls, List.mem_filterMap] at hl
      obtain ⟨r, hr, h⟩ := hl
      by_cases hs : r.status = some 200
      · rw [if_pos hs, Option.some.injEq, Prod.mk.injEq] at h
        exact ⟨r, hr, h.1, hs⟩
      · rw [if_neg hs] at h
        exact absurd h (by simp)
    · rintro ⟨r, hr, hu, hs⟩
      refine ⟨r.latency.getD 0, ?_⟩
      simp only [working_urls, List.mem_filterMap]
      exact ⟨r, hr, by simp [hs, hu]⟩
  · intro l hl
    simp only [working_urls, List.mem_filterMap] at hl
    obtain ⟨r, hr, h⟩ := hl
    by_cases hs : r.status = some 200
    · rw [if_pos hs, Option.some.injEq, Prod.mk.injEq] at h
      exact ⟨r, hr, h.1, hs, h.2.symm⟩
    · rw [if_neg hs] at h
      exact absurd h (by simp)

theorem working_urls_gate_witness :
    ∃ r ∈ [(⟨"a".data, some 200, some 5⟩ : UrlResult),
        ⟨"b".data, some 301, some 7⟩, ⟨"c".data, none, none⟩],
      r.url = "a".data ∧ r.status = some 200 :=
  (working_urls_gate
      [⟨"a".data, some 200, some 5⟩, ⟨"b".data, some 301, some 7⟩,
        ⟨"c".data, none, none⟩] "a".data).1.mp ⟨5, by decide⟩

/-- C2: every node produced by `parse_protocol_url` comes from a capture
split at its rightmost colon, with the port substring parsing as an
integer ≤ 65535; and on text containing
`vless://user@2001:db8::1:8443` the result is the node with host
`2001:db8::1` and port 8443. -/
theorem parse_protocol_url_rightmost_colon (patterns : RegexPatterns)
    (protocol : String) (text : Str) (n : Node)
    (hmem : n ∈ parse_protocol_url text patterns protocol) :
    (∃ rx hostport port_str,
      protocolRegex patterns protocol = some rx ∧
      hostport ∈ rx text ∧
      splitAtLastColon hostport = some (n.host, port_str) ∧
      hostport = n.host ++ ':' :: port_str ∧ ':' ∉ port_str ∧
      parseU16 port_str = some n.port ∧ n.port ≤ 65535) ∧
    parse_protocol_url "vless://user@2001:db8::1:8443".data RegexPatterns.new
      "vless" = [Node.new "2001:db8::1".data 8443] := by
  refine ⟨?_, by decide⟩
  simp only [parse_protocol_url] at hmem
  split at hmem
  · exact absurd hmem (by simp)
  · next rx hrx =>
    rw [List.mem_filterMap] at hmem
    obtain ⟨hostport, hin, heq⟩ := hmem
    split at heq
    · exact absurd heq (by simp)
    · next host port_str hsp =>
      rw [Option.map_eq_some'] at heq
      obtain ⟨v, hv, hn⟩ := heq
      have hhost : n.host = host := by rw [← hn]; rfl
      have hport : n.port = v := by rw [← hn]; rfl
      have hsp' : splitAtLastColon hostport = some (n.host, port_str) := by
        rw [hhost]; exact hsp
      obtain ⟨hdec, hnocolon⟩ := splitAtLastColon_spec hostport n.host port_str hsp'
      exact ⟨rx, hostport, port_str, hrx, hin, hsp', hdec, hnocolon,
        hport ▸ hv, hport ▸ parseU16_le _ _ hv⟩

theorem parse_protocol_url_rightmost_colon_witness :
    Node.new "2001:db8::1".data 8443 ∈
      parse_protocol_url "vless://user@2001:db8::1:8443".data
        RegexPatterns.new "vless" ∧
    (Node.new "2001:db8::1".data 8443).port ≤ 65535 :=
  ⟨by decide,
    ((parse_protocol_url_rightmost_colon RegexPatterns.new "vless"
        "vless://user@2001:db8::1:8443".data
        (Node.new "2001:db8::1".data 8443)
        (by decide)).1.choose_spec.choose_spec.choose_spec.2.2.2.2.2.2)⟩

/-- `containsSub` is the substring (infix) relation. -/
theorem containsSub_infix_iff (t u : Str) : containsSub t u = true ↔ u <:+: t := by
  induction t with
  | nil =>
    rw [containsSub]
    constructor
    · intro h
      split at h
      · next hpre => exact (List.isPrefixOf_iff_prefix.mp hpre).isInfix
      · exact absurd h (by simp)
    · intro h
      rw [List.infix_nil] at h
      subst h
      simp
  | cons c ts ih =>
    rw [containsSub]
    constructor
    · intro h
      split at h
      · next hpre => exact (List.isPrefixOf_iff_prefix.mp hpre).isInfix
      · exact List.infix_cons (ih.mp h)
    · intro h
      rcases List.infix_cons_iff.mp h with hp | hi
      · rw [if_pos (List.isPrefixOf_iff_prefix.mpr hp)]
      · split
        · rfl
        · exact ih.mpr hi

/-- C9: the ss trigger (`text contains "ss://"`) is implied by the vless
and vmess triggers, `"ss://"` being a suffix of both scheme prefixes; and
on the body `vmess://x@host:1234` — whose base64 payload `x` fails to
decode — the dispatcher falls through to the ss parser, which extracts a
node from the tail of the vmess URI. -/
theorem ss_trigger_subsumption (t : Str)
    (hv : containsSub t ("vless".data ++ "://".data) = true ∨
      containsSub t "vmess://".data = true) :
    containsSub t ("ss".data ++ "://".data) = true ∧
    detect_format_and_parse c9Body RegexPatterns.new false =
      some [Node.new "host".data 1234] ∧
    parse_vmess c9Body RegexPatterns.new = [] ∧
    parse_protocol_url c9Body RegexPatterns.new "ss" =
      [Node.new "host".data 1234] ∧
    containsSub c9Body ("ss".data ++ "://".data) = true := by
  refine ⟨?_, by decide, by decide, by decide, by decide⟩
  rcases hv with h | h
  · exact (containsSub_infix_iff ..).mpr
      (((by decide : containsSub ("vless".data ++ "://".data)
            ("ss".data ++ "://".data) = true) |>
          (containsSub_infix_iff ..).mp).trans
        ((containsSub_infix_iff ..).mp h))
  · exact (containsSub_infix_iff ..).mpr
      (((by decide : containsSub "vmess://".data
            ("ss".data ++ "://".data) = true) |>
          (containsSub_infix_iff ..).mp).trans
        ((containsSub_infix_iff ..).mp h))

theorem ss_trigger_subsumption_witness :
    containsSub c9Body "vmess://".data = true ∧
    containsSub c9Body ("ss".data ++ "://".data) = true :=
  ⟨by decide, (ss_trigger_subsumption c9Body (Or.inr (by decide))).1⟩

/-- C1: when the (capped) body triggers the structured-config parser
(`proxies:` in the lowercased text) and that parser yields at least one
node, `detect_format_and_parse` returns exactly the YAML parser's result
for ANY pattern table — so the vmess parser is never invoked and
contributes nothing; and on a concrete body containing both a `proxies:`
block and a `vmess://` URI, the result is the YAML parser's node. -/
theorem clash_yaml_priority (text t' : Str) (v : Bool)
    (patterns : RegexPatterns)
    (hne : trimStr text ≠ [])
    (hlim : safe_limit_text text = some t')
    (htrig : containsSub (lowerStr t') "proxies:".data = true)
    (hyaml : parse_clash_yaml t' ≠ []) :
    detect_format_and_parse text patterns v = some (parse_clash_yaml t') ∧
    detect_format_and_parse c1Body RegexPatterns.new v =
      some [Node.new "h.com".data 443] ∧
    containsSub c1Body "vmess://".data = true ∧
    containsSub (lowerStr c1Body) "proxies:".data = true := by
  refine ⟨?_, by cases v <;> decide, by decide, by decide⟩
  simp only [detect_format_and_parse]
  rw [if_neg hne, hlim]
  simp only [htrig, Bool.true_or, if_true]
  rw [if_pos hyaml]

theorem clash_yaml_priority_witness :
    trimStr c1Body ≠ [] ∧
    detect_format_and_parse c1Body RegexPatterns.new false =
      some (parse_clash_yaml c1Body) :=
  ⟨by decide,
    (clash_yaml_priority c1Body c1Body false RegexPatterns.new
      (by decide) (by decide) (by decide) (by decide)).1⟩

theorem parse_vmess_port_le (text : Str) (patterns : RegexPatterns)
    (n : Node) (h : n ∈ parse_vmess text patterns) : n.port ≤ 65535 := by
  simp only [parse_vmess] at h
  rw [List.mem_filterMap] at h
  obtain ⟨a, -, h⟩ := h
  repeat' split at h
  all_goals try exact Option.noConfusion h
  rw [Option.some.injEq] at h
  subst h
  dsimp only [Node.new]
  assumption

theorem parse_protocol_url_port_le (text : Str) (patterns : RegexPatterns)
    (protocol : String) (n : Node)
    (h : n ∈ parse_protocol_url text patterns protocol) : n.port ≤ 65535 := by
  simp only [parse_protocol_url] at h
  split at h
  · exact absurd h (by simp)
  · rw [List.mem_filterMap] at h
    obtain ⟨hp, -, h⟩ := h
    split at h
    · exact absurd h (by simp)
    · rw [Option.map_eq_some'] at h
      obtain ⟨v, hv, hn⟩ := h
      rw [← hn]
      exact parseU16_le _ _ hv

theorem parse_ssr_port_le (text : Str) (patterns : RegexPatterns)
    (n : Node) (h : n ∈ parse_ssr text patterns) : n.port ≤ 65535 := by
  simp only [parse_ssr] at h
  rw [List.mem_filterMap] at h
  obtain ⟨a, -, h⟩ := h
  repeat' split at h
  all_goals try exact Option.noConfusion h
  rw [Option.map_eq_some'] at h
  obtain ⟨v, hv, hn⟩ := h
  rw [← hn]
  exact parseU16_le _ _ hv

theorem parse_clash_yaml_port_le (text : Str) (n : Node)
    (h : n ∈ parse_clash_yaml text) : n.port ≤ 65535 := by
  simp only [parse_clash_yaml] at h
  repeat' split at h
  all_goals try exact absurd h (List.not_mem_nil n)
  rw [List.mem_filterMap] at h
  obtain ⟨a, -, h⟩ := h
  repeat' split at h
  all_goals try exact Option.noConfusion h
  rw [Option.some.injEq] at h
  subst h
  dsimp only [Node.new]
  assumption

theorem parse_v2ray_json_port_le (text : Str) (n : Node)
    (h : n ∈ parse_v2ray_json text) : n.port ≤ 65535 := by
  simp only [parse_v2ray_json] at h
  repeat' split at h
  all_goals try exact absurd h (List.not_mem_nil n)
  rw [List.mem_flatMap] at h
  obtain ⟨ob, -, h⟩ := h
  split at h
  · exact absurd h (List.not_mem_nil n)
  · rw [List.mem_filterMap] at h
    obtain ⟨a, -, h⟩ := h
    repeat' split at h
    all_goals try exact Option.noConfusion h
    rw [Option.some.injEq] at h
    subst h
    dsimp only [Node.new]
    assumption

theorem parse_inline_json_port_le (text : Str) (patterns : RegexPatterns)
    (n : Node) (h : n ∈ parse_inline_json text patterns) : n.port ≤ 65535 := by
  simp only [parse_inline_json] at h
  rw [List.mem_filterMap] at h
  obtain ⟨a, -, h⟩ := h
  repeat' split at h
  all_goals try exact Option.noConfusion h
  rw [Option.some.injEq] at h
  subst h
  dsimp only [Node.new]
  assumption

theorem parse_generic_port_le (text : Str) (patterns : RegexPatterns)
    (n : Node) (h : n ∈ parse_generic text patterns) : n.port ≤ 65535 := by
  simp only [parse_generic] at h
  rw [List.mem_filterMap] at h
  obtain ⟨a, -, h⟩ := h
  rw [Option.map_eq_some'] at h
  obtain ⟨v, hv, hn⟩ := h
  rw [← hn]
  exact parseU16_le _ _ hv

theorem protoLoop_port_le (text : Str) (patterns : RegexPatterns)
    (l : List String) (ns : List Node)
    (h : protoLoop text patterns l = some ns) (n : Node) (hn : n ∈ ns) :
    n.port ≤ 65535 := by
  induction l with
  | nil => simp [protoLoop] at h
  | cons p ps ih =>
    simp only [protoLoop] at h
    split at h
    · split at h
      · rw [Option.some.injEq] at h
        subst h
        exact parse_protocol_url_port_le _ _ _ _ hn
      · exact ih h
    · exact ih h

set_option maxHeartbeats 1000000 in
/-- C4: for every input text, pattern table, and verbose flag, the node
list returned by `detect_format_and_parse` contains no node whose port
exceeds 65535 — every parser in the chain checks `port ≤ 65535` or parses
the port as a 16-bit integer before constructing a node. -/
theorem detect_format_and_parse_port_bound (text : Str)
    (patterns : RegexPatterns) (verbose : Bool) (ns : List Node)
    (h : detect_format_and_parse text patterns verbose = some ns) :
    ∀ n ∈ ns, n.port ≤ 65535 := by
  intro n hn
  simp only [detect_format_and_parse] at h
  repeat' split at h
  all_goals try exact Option.noConfusion h
  all_goals rw [Option.some.injEq] at h
  all_goals subst h
  all_goals first
    | exact absurd hn (List.not_mem_nil n)
    | exact parse_clash_yaml_port_le _ _ hn
    | exact parse_v2ray_json_port_le _ _ hn
    | exact parse_vmess_port_le _ _ _ hn
    | exact parse_ssr_port_le _ _ _ hn
    | exact parse_inline_json_port_le _ _ _ hn
    | exact parse_generic_port_le _ _ _ hn
    | (next heq => exact protoLoop_port_le _ _ _ _ heq _ hn)

theorem detect_format_and_parse_port_bound_witness :
    (Node.new "host".data 1234).port ≤ 65535 :=
  detect_format_and_parse_port_bound "host:1234".data RegexPatterns.new
    false [Node.new "host".data 1234] (by decide)
    (Node.new "host".data 1234) (by decide)

/-! ### Lemmas about the text cap -/

theorem byteLen_append (a b : Str) :
    byteLen (a ++ b) = byteLen a + byteLen b := by
  simp [byteLen]

theorem byteLen_cons (c : Char) (s : Str) :
    byteLen (c :: s) = c.utf8Size + byteLen s := by
  simp [byteLen]

theorem byteLen_replicate (n : Nat) (c : Char) :
    byteLen (List.replicate n c) = n * c.utf8Size := by
  simp [byteLen, List.map_replicate, List.sum_const_nat]

theorem bytePre_byteLen (n : Nat) (s b : Str)
    (h : bytePre n s = some b) : byteLen b = n := by
  induction s generalizing n b with
  | nil =>
    rw [bytePre] at h
    split at h
    · next h0 => rw [Option.some.injEq] at h; subst h; simp [byteLen, h0]
    · exact Option.noConfusion h
  | cons c cs ih =>
    rw [bytePre] at h
    split at h
    · next h0 => rw [Option.some.injEq] at h; subst h; simp [byteLen, h0]
    · next h0 =>
      split at h
      · next hsz =>
        rw [Option.map_eq_some'] at h
        obtain ⟨b', hb', hbb⟩ := h
        subst hbb
        rw [byteLen_cons, ih _ _ hb']
        omega
      · exact Option.noConfusion h

theorem bytePre_replicate_two_odd (c : Char) (hc : c.utf8Size = 2) :
    ∀ (m n : Nat), n % 2 = 1 → n ≤ 2 * m →
      bytePre n (List.replicate m c) = none := by
  intro m
  induction m with
  | zero => intro n h1 h2; omega
  | succ k ih =>
    intro n h1 h2
    rw [List.replicate_succ, bytePre]
    rw [if_neg (by omega)]
    by_cases hsz : c.utf8Size ≤ n
    · rw [if_pos hsz, ih (n - c.utf8Size) (by omega) (by omega)]
      rfl
    · rw [if_neg hsz]

theorem splitOnChar_ne_nil (sep : Char) (s : Str) :
    splitOnChar sep s ≠ [] := by
  induction s with
  | nil => simp [splitOnChar]
  | cons c cs ih =>
    rw [splitOnChar]
    split
    · simp
    · split
      · simp
      · simp

theorem splitOnChar_not_mem (sep : Char) (s : Str) :
    ∀ p ∈ splitOnChar sep s, sep ∉ p := by
  induction s with
  | nil => simp [splitOnChar]
  | cons c cs ih =>
    rw [splitOnChar]
    split
    · next hcs =>
      intro p hp
      rcases List.mem_cons.mp hp with h | h
      · subst h; simp
      · exact ih p h
    · next hcs =>
      split
      · next hnil => exact absurd hnil (splitOnChar_ne_nil sep cs)
      · next p ps hps =>
        intro q hq
        rcases List.mem_cons.mp hq with h | h
        · subst h
          intro hmem
          rcases List.mem_cons.mp hmem with h | h
          · exact hcs h.symm
          · exact ih p (hps ▸ List.mem_cons_self p ps) h
        · exact ih q (hps ▸ List.mem_cons_of_mem p h)

theorem joinLines_cons (a : Str) (xs : List Str) (h : xs ≠ []) :
    joinLines (a :: xs) = a ++ '\n' :: joinLines xs := by
  match xs with
  | [] => exact absurd rfl h
  | b :: ys => rfl

theorem joinLines_splitOnNl (s : Str) : joinLines (splitOnNl s) = s := by
  induction s with
  | nil => rfl
  | cons c cs ih =>
    rw [splitOnNl, splitOnChar] at *
    split
    · next hc =>
      rw [joinLines_cons _ _ (splitOnChar_ne_nil _ _), ih, hc]
      rfl
    · next hc =>
      split
      · next hnil => exact absurd hnil (splitOnChar_ne_nil _ _)
      · next p ps hps =>
        rw [hps] at ih
        match ps, ih with
        | [], ih => simpa [joinLines] using congrArg (c :: ·) ih
        | q :: qs, ih =>
          rw [joinLines_cons _ _ (by simp)] at ih ⊢
          rw [List.cons_append, ih]

theorem splitOnNl_no_nl (s : Str) (h : '\n' ∉ s) : splitOnNl s = [s] := by
  induction s with
  | nil => rfl
  | cons c cs ih =>
    rw [splitOnNl, splitOnChar]
    rw [if_neg (by intro hc; exact h (hc ▸ List.mem_cons_self c cs))]
    have := ih (fun hm => h (List.mem_cons_of_mem c hm))
    rw [splitOnNl] at this
    rw [this]

theorem splitOnNl_append (a s : Str) (h : '\n' ∉ a) :
    splitOnNl (a ++ '\n' :: s) = a :: splitOnNl s := by
  induction a with
  | nil => simp [splitOnNl, splitOnChar]
  | cons c cs ih =>
    rw [List.cons_append, splitOnNl, splitOnChar]
    rw [if_neg (by intro hc; exact h (hc ▸ List.mem_cons_self c cs))]
    have := ih (fun hm => h (List.mem_cons_of_mem c hm))
    rw [splitOnNl] at this
    rw [this]

theorem splitOnNl_joinLines (l : List Str) (hne : l ≠ [])
    (hnl : ∀ p ∈ l, '\n' ∉ p) : splitOnNl (joinLines l) = l := by
  induction l with
  | nil => exact absurd rfl hne
  | cons a xs ih =>
    match xs with
    | [] =>
      exact splitOnNl_no_nl a (hnl a (List.mem_cons_self a []))
    | b :: ys =>
      rw [joinLines_cons a (b :: ys) (by simp)]
      rw [splitOnNl_append _ _ (hnl a (List.mem_cons_self a _))]
      rw [ih (by simp) (fun p hp => hnl p (List.mem_cons_of_mem a hp))]

theorem byteLen_joinLines_take_le (l : List Str) (k : Nat) :
    byteLen (joinLines (l.take k)) ≤ byteLen (joinLines l) := by
  induction l generalizing k with
  | nil => simp
  | cons a xs ih =>
    match k with
    | 0 => simp [joinLines, byteLen]
    | k + 1 =>
      rw [List.take_succ_cons]
      match xs with
      | [] => simp
      | b :: ys =>
        match hk : (b :: ys).take k with
        | [] =>
          have ha : joinLines [a] = a := rfl
          rw [ha, joinLines_cons a (b :: ys) (by simp), byteLen_append,
            byteLen_cons]
          omega
        | q :: qs =>
          rw [joinLines_cons a (q :: qs) (by simp),
            joinLines_cons a (b :: ys) (by simp)]
          have := ih k
          rw [hk] at this
          rw [byteLen_append, byteLen_append, byteLen_cons, byteLen_cons]
          omega

theorem byteLen_stripCr_le (s : Str) : byteLen (stripCr s) ≤ byteLen s := by
  rw [stripCr]
  split
  · next rest hrev =>
    have : s = ('\r' :: rest).reverse := by rw [← hrev, List.reverse_reverse]
    rw [this]
    simp [byteLen]
  · exact le_refl _

theorem byteLen_joinLines_map_stripCr_le (l : List Str) :
    byteLen (joinLines (l.map stripCr)) ≤ byteLen (joinLines l) := by
  induction l with
  | nil => simp
  | cons a xs ih =>
    match xs with
    | [] => simpa [joinLines] using byteLen_stripCr_le a
    | b :: ys =>
      rw [List.map_cons, joinLines_cons _ _ (by simp),
        joinLines_cons _ _ (by simp), byteLen_append, byteLen_append,
        byteLen_cons, byteLen_cons]
      have h1 := byteLen_stripCr_le a
      have h2 := ih
      rw [List.map_cons] at h2
      omega

theorem byteLen_joinLines_dropLast_le (l : List Str) :
    byteLen (joinLines l.dropLast) ≤ byteLen (joinLines l) := by
  induction l with
  | nil => simp
  | cons a xs ih =>
    match xs with
    | [] => simp [joinLines, byteLen]
    | b :: ys =>
      rw [List.dropLast_cons_of_ne_nil (by simp)]
      match hk : (b :: ys).dropLast with
      | [] =>
        have ha : joinLines [a] = a := rfl
        rw [ha, joinLines_cons a (b :: ys) (by simp), byteLen_append,
          byteLen_cons]
        omega
      | q :: qs =>
        rw [joinLines_cons a (q :: qs) (by simp),
          joinLines_cons a (b :: ys) (by simp)]
        have := ih
        rw [hk] at this
        rw [byteLen_append, byteLen_append, byteLen_cons, byteLen_cons]
        omega

theorem byteLen_joinLines_rustLines_le (s : Str) :
    byteLen (joinLines (rustLines s)) ≤ byteLen s := by
  have hfinal : byteLen (joinLines (splitOnNl s)) = byteLen s := by
    rw [joinLines_splitOnNl]
  rw [rustLines]
  split
  · calc byteLen (joinLines ((splitOnNl s).dropLast.map stripCr))
        ≤ byteLen (joinLines (splitOnNl s).dropLast) :=
          byteLen_joinLines_map_stripCr_le _
      _ ≤ byteLen (joinLines (splitOnNl s)) :=
          byteLen_joinLines_dropLast_le _
      _ = byteLen s := hfinal
  · calc byteLen (joinLines ((splitOnNl s).map stripCr))
        ≤ byteLen (joinLines (splitOnNl s)) :=
          byteLen_joinLines_map_stripCr_le _
      _ = byteLen s := hfinal

theorem byteLen_capped_le (s : Str) (k : Nat) :
    byteLen (joinLines ((rustLines s).take k)) ≤ byteLen s :=
  le_trans (byteLen_joinLines_take_le _ _) (byteLen_joinLines_rustLines_le s)

theorem stripCr_subset (s : Str) (c : Char) (h : c ∈ stripCr s) : c ∈ s := by
  rw [stripCr] at h
  split at h
  · next rest hrev =>
    have hs : s = ('\r' :: rest).reverse := by rw [← hrev, List.reverse_reverse]
    rw [hs]
    simp only [List.mem_reverse] at h ⊢
    exact List.mem_cons_of_mem _ h
  · exact h

theorem rustLines_no_nl (s : Str) : ∀ p ∈ rustLines s, '\n' ∉ p := by
  rw [rustLines]
  intro p hp hmem
  split at hp
  · rw [List.mem_map] at hp
    obtain ⟨q, hq, hpq⟩ := hp
    have hqs : q ∈ splitOnNl s := (List.dropLast_sublist _).subset hq
    exact splitOnChar_not_mem '\n' s q hqs (stripCr_subset q '\n' (hpq ▸ hmem))
  · rw [List.mem_map] at hp
    obtain ⟨q, hq, hpq⟩ := hp
    exact splitOnChar_not_mem '\n' s q hq (stripCr_subset q '\n' (hpq ▸ hmem))

theorem rustLines_joinLines (l : List Str) (hne : l ≠ [])
    (hnl : ∀ p ∈ l, '\n' ∉ p) (hlast : l.getLast? ≠ some []) :
    rustLines (joinLines l) = l.map stripCr := by
  rw [rustLines]
  rw [splitOnNl_joinLines l hne hnl]
  rw [if_neg hlast]

theorem rustLines_joinLines_length_le (l : List Str)
    (hnl : ∀ p ∈ l, '\n' ∉ p) :
    (rustLines (joinLines l)).length ≤ l.length := by
  match l with
  | [] => simp [joinLines, rustLines, splitOnNl, splitOnChar]
  | a :: xs =>
    rw [rustLines]
    rw [splitOnNl_joinLines (a :: xs) (by simp) hnl]
    split
    · simp [List.length_dropLast]
    · simp

/-- C7: the dispatcher's cap runs before any parser: a successful
`safe_limit_text` output is at most `MAX_TEXT_SIZE` bytes and at most
`MAX_LINES` lines; a body within the byte cap but over the line cap is
reduced to exactly its first `MAX_LINES` lines (with the exact count when
the 50,000th kept line is nonempty); a body over the byte cap is first
sliced to exactly `MAX_TEXT_SIZE` bytes. -/
theorem safe_limit_text_caps (text t' : Str)
    (h : safe_limit_text text = some t') :
    byteLen t' ≤ MAX_TEXT_SIZE ∧
    (rustLines t').length ≤ MAX_LINES ∧
    (byteLen text ≤ MAX_TEXT_SIZE → MAX_LINES < (rustLines text).length →
      t' = joinLines ((rustLines text).take MAX_LINES)) ∧
    (byteLen text ≤ MAX_TEXT_SIZE → MAX_LINES < (rustLines text).length →
      ((rustLines text).take MAX_LINES).getLast? ≠ some [] →
      (rustLines t').length = MAX_LINES) ∧
    (MAX_TEXT_SIZE < byteLen text →
      ∃ b, bytePre MAX_TEXT_SIZE text = some b ∧
        byteLen b = MAX_TEXT_SIZE ∧
        ((rustLines b).length ≤ MAX_LINES → t' = b)) := by
  have main : ∀ (base : Str),
      (if (rustLines base).length > MAX_LINES then
        some (joinLines ((rustLines base).take MAX_LINES))
      else some base) = some t' →
      byteLen t' ≤ byteLen base ∧ (rustLines t').length ≤ MAX_LINES ∧
      (MAX_LINES < (rustLines base).length →
        t' = joinLines ((rustLines base).take MAX_LINES)) ∧
      (MAX_LINES < (rustLines base).length →
        ((rustLines base).take MAX_LINES).getLast? ≠ some [] →
        (rustLines t').length = MAX_LINES) ∧
      ((rustLines base).length ≤ MAX_LINES → t' = base) := by
    intro base hb
    by_cases hl : (rustLines base).length > MAX_LINES
    · rw [if_pos hl, Option.some.injEq] at hb
      subst hb
      have hnl : ∀ p ∈ (rustLines base).take MAX_LINES, '\n' ∉ p :=
        fun p hp => rustLines_no_nl base p (List.take_subset _ _ hp)
      have hlen : ((rustLines base).take MAX_LINES).length = MAX_LINES := by
        rw [List.length_take]
        omega
      refine ⟨byteLen_capped_le base MAX_LINES, ?_, fun _ => rfl, ?_, ?_⟩
      · calc (rustLines (joinLines ((rustLines base).take MAX_LINES))).length
            ≤ ((rustLines base).take MAX_LINES).length :=
              rustLines_joinLines_length_le _ hnl
          _ ≤ MAX_LINES := by rw [hlen]
      · intro _ hlast
        rw [rustLines_joinLines _
          (by rw [← List.length_pos_iff_ne_nil, hlen]; decide) hnl hlast]
        rw [List.length_map, hlen]
      · intro hc
        omega
    · rw [if_neg hl, Option.some.injEq] at hb
      subst hb
      exact ⟨le_refl _, by omega, fun hc => absurd hc hl, fun hc => absurd hc hl,
        fun _ => rfl⟩
  simp only [safe_limit_text] at h
  by_cases hbig : byteLen text > MAX_TEXT_SIZE
  · rw [if_pos hbig] at h
    match hpre : bytePre MAX_TEXT_SIZE text with
    | none => rw [hpre] at h; exact Option.noConfusion h
    | some b =>
      rw [hpre] at h
      have hbl := bytePre_byteLen _ _ _ hpre
      obtain ⟨h1, h2, _, _, h5⟩ := main b h
      exact ⟨le_trans h1 (le_of_eq hbl), h2,
        fun hc => absurd hc (by omega),
        fun hc => absurd hc (by omega),
        fun _ => ⟨b, rfl, hbl, h5⟩⟩
  · rw [if_neg hbig] at h
    obtain ⟨h1, h2, h3, h4, _⟩ := main text h
    exact ⟨le_trans h1 (by omega), h2, fun _ => h3, fun _ => h4,
      fun hc => absurd hc (by omega)⟩

theorem byteLen_joinLines_replicate_a :
    ∀ n, byteLen (joinLines (List.replicate (n + 1) ['a'])) = 2 * n + 1 := by
  intro n
  induction n with
  | zero => rfl
  | succ k ih =>
    rw [List.replicate_succ, joinLines_cons _ _ (by simp),
      byteLen_append, byteLen_cons, byteLen_cons, ih]
    have ha : ('a').utf8Size = 1 := by decide
    have hn : ('\n').utf8Size = 1 := by decide
    have hz : byteLen [] = 0 := rfl
    rw [ha, hn, hz]
    omega

theorem c7_rustLines : rustLines c7Text = List.replicate 60000 ['a'] := by
  rw [c7Text, rustLines_joinLines _
    (List.ne_nil_of_length_pos (by rw [List.length_replicate]; decide)) ?nl ?last]
  case nl =>
    intro p hp
    rw [List.eq_of_mem_replicate hp]
    decide
  case last =>
    rw [List.getLast?_replicate]
    decide
  have hstrip : stripCr ['a'] = ['a'] := rfl
  rw [List.map_replicate, hstrip]

theorem c7_byteLen : byteLen c7Text = 119999 := by
  have h := byteLen_joinLines_replicate_a 59999
  have e : (59999 : Nat) + 1 = 60000 := by norm_num
  rw [e] at h
  show byteLen (joinLines (List.replicate 60000 ['a'])) = 119999
  rw [h]

theorem safe_limit_text_line_branch (text : Str)
    (hb : ¬ byteLen text > MAX_TEXT_SIZE)
    (hl : (rustLines text).length > MAX_LINES) :
    safe_limit_text text =
      some (joinLines ((rustLines text).take MAX_LINES)) := by
  simp only [safe_limit_text]
  rw [if_neg hb]
  dsimp only
  rw [if_pos hl]

theorem c7_safe_limit : safe_limit_text c7Text = some c7Capped := by
  have h := safe_limit_text_line_branch c7Text
    (by rw [c7_byteLen]; decide)
    (by rw [c7_rustLines, List.length_replicate]; decide)
  rw [h, c7_rustLines, List.take_replicate]
  have e : min MAX_LINES 60000 = MAX_LINES := by decide
  rw [e, c7Capped]

theorem safe_limit_text_caps_witness :
    safe_limit_text c7Text = some c7Capped ∧
    (rustLines c7Text).length = 60000 ∧
    (rustLines c7Capped).length = MAX_LINES :=
  ⟨c7_safe_limit,
    by rw [c7_rustLines, List.length_replicate],
    (safe_limit_text_caps c7Text c7Capped c7_safe_limit).2.2.2.1
      (by rw [c7_byteLen]; decide)
      (by rw [c7_rustLines, List.length_replicate]; decide)
      (by
        rw [c7_rustLines, List.take_replicate]
        rw [List.getLast?_replicate]
        decide)⟩

theorem c8_byteLen : byteLen c8Text = 52428801 := by
  rw [c8Text, byteLen_cons, byteLen_replicate]
  decide

theorem c8_bytePre : bytePre MAX_TEXT_SIZE c8Text = none := by
  rw [c8Text, bytePre]
  rw [if_neg (by decide)]
  rw [if_pos (by decide)]
  have h2 : MAX_TEXT_SIZE - ('a').utf8Size = 52428799 := by decide
  rw [h2, bytePre_replicate_two_odd 'é' (by decide) 26214400 52428799
    (by decide) (by decide)]
  rfl

theorem safe_limit_big_branch (text : Str)
    (hb : byteLen text > MAX_TEXT_SIZE)
    (hp : bytePre MAX_TEXT_SIZE text = none) :
    safe_limit_text text = none := by
  simp only [safe_limit_text]
  rw [if_pos hb, hp]

/-- C8 (code behaviour at the failing input): on a body one byte past the
50 MB cap whose cap offset falls inside the two-byte character `é`, the
byte slice of `safe_limit_text` does not land on a character boundary and
the function panics (modelled as `none`) instead of returning a truncated
string. -/
theorem safe_limit_text_panic_input :
    MAX_TEXT_SIZE < byteLen c8Text ∧ safe_limit_text c8Text = none := by
  constructor
  · rw [c8_byteLen]
    decide
  · exact safe_limit_big_branch c8Text (by rw [c8_byteLen]; decide) c8_bytePre

end ProxyYoinker
